import Mathlib

/-!
Verification development for the TallerLexico lexical scanner
(`lexer_taller.py` / `lexer,0,0.py`, class `Lexer`).

The two Python files contain the same scanning core: a combined regular
expression with named alternatives (WHITESPACE, IDENTIFIER, INTEGER,
OPERATOR, DELIMITER) matched anchored at the cursor position, a
reserved-word set `{"if","else","while"}` used to reclassify identifier
matches, a line/column advancement helper `_advance_position`, and a
`tokenize` loop that raises a positioned lexical error on the first
unmatchable character.

The embedding below follows the source code:
  * `Token` mirrors the frozen dataclass `Token(type, lexeme, line, col)`.
  * `LexError` captures the payload of the `ValueError` raised by
    `tokenize` (the offending character and the 1-based line/column).
  * `masterMatch` is `self.master_pattern.match(text, pos)`: the five
    alternatives are tried in declared order, each anchored at the cursor,
    each `+`-quantified class matching greedily (maximal run).  The
    character classes are disjoint, so this is exactly a dispatch on the
    first character followed by a maximal run of the class.
  * `isPySpace` is Python's `\s` for `str` patterns: the ASCII whitespace
    characters TAB..CR, the separators U+001C..U+001F, space, NEL U+0085,
    NBSP U+00A0, and the Unicode space separators.  Note this is strictly
    larger than {space, tab, newline}.
  * `Lexer.advancePosition` mirrors `Lexer._advance_position`.
  * `tokenizeFuel` is the `while pos < len(text)` loop of
    `Lexer.tokenize`, with the remaining input as an explicit list and a
    fuel argument for termination; every loop iteration consumes at least
    one character, so fuel `length input` always suffices
    (`tokenizeFuel_some` below), and the `none` (out of fuel) outcome is
    provably unreachable from `tokenize`.
-/

namespace TallerLexico

/-- Token categories of the scanner: the `token_type` strings
`"KEYWORD" | "IDENTIFIER" | "INTEGER" | "OPERATOR" | "DELIMITER"`
assigned in `Lexer.tokenize`. -/
inductive TokenType where
  | KEYWORD
  | IDENTIFIER
  | INTEGER
  | OPERATOR
  | DELIMITER
deriving DecidableEq

/-- The frozen dataclass `Token(type, lexeme, line, col)`. -/
structure Token where
  type : TokenType
  lexeme : String
  line : Nat
  col : Nat
deriving DecidableEq

/-- Payload of the `ValueError` raised by `Lexer.tokenize`: the offending
character `text[pos]` and the current 1-based `line` and `col`. -/
structure LexError where
  char : Char
  line : Nat
  col : Nat
deriving DecidableEq

/-- The named group of `master_pattern` that matched (`match.lastgroup`). -/
inductive MatchKind where
  | WHITESPACE
  | IDENTIFIER
  | INTEGER
  | OPERATOR
  | DELIMITER
deriving DecidableEq

/-- `self.keywords = {"if", "else", "while"}`. -/
def keywords : List String := ["if", "else", "while"]

/-- Python's `\s` character class for `str` patterns (what the
`(?P<WHITESPACE>\s+)` alternative matches one character of): TAB, LF, VT,
FF, CR (9..13), FS/GS/RS/US (28..31), space (32), NEL (133), NBSP (160),
Ogham space mark (5760), the Unicode space separators U+2000..U+200A
(8192..8202), line/paragraph separators (8232, 8233), narrow no-break
space (8239), medium mathematical space (8287) and ideographic space
(12288). -/
def isPySpace (c : Char) : Bool :=
  decide (9 ≤ c.toNat ∧ c.toNat ≤ 13) ||
  decide (28 ≤ c.toNat ∧ c.toNat ≤ 32) ||
  decide (c.toNat = 133) ||
  decide (c.toNat = 160) ||
  decide (c.toNat = 5760) ||
  decide (8192 ≤ c.toNat ∧ c.toNat ≤ 8202) ||
  decide (c.toNat = 8232 ∨ c.toNat = 8233 ∨ c.toNat = 8239 ∨
          c.toNat = 8287 ∨ c.toNat = 12288)

/-- The `[a-z]` class of `(?P<IDENTIFIER>[a-z]+)`: code points 97..122. -/
def isLowerAZ (c : Char) : Bool :=
  decide (97 ≤ c.toNat ∧ c.toNat ≤ 122)

/-- The `[0-9]` class of `(?P<INTEGER>[0-9]+)`: code points 48..57. -/
def isDigit09 (c : Char) : Bool :=
  decide (48 ≤ c.toNat ∧ c.toNat ≤ 57)

/-- The `[+\-*/=]` class of `(?P<OPERATOR>[+\-*/=])`. -/
def isOpChar (c : Char) : Bool :=
  c == '+' || c == '-' || c == '*' || c == '/' || c == '='

/-- The `[();]` class of `(?P<DELIMITER>[();])`. -/
def isDelimChar (c : Char) : Bool :=
  c == '(' || c == ')' || c == ';'

/-- A character at which some alternative of `master_pattern` can start a
match (the union of the five character classes). -/
def recognizedChar (c : Char) : Bool :=
  isPySpace c || isLowerAZ c || isDigit09 c || isOpChar c || isDelimChar c

/-- `self.master_pattern.match(text, pos)` on the remaining input:
the five named alternatives are tried in declared order, anchored at the
cursor; a `+`-quantified class matches greedily, i.e. the maximal run of
its class; `OPERATOR` and `DELIMITER` match a single character.  Returns
`(match.lastgroup, matched lexeme, remaining input after match.end())`,
or `none` when no alternative matches. -/
def masterMatch : List Char → Option (MatchKind × List Char × List Char)
  | [] => none
  | c :: cs =>
    if isPySpace c then
      some (.WHITESPACE, c :: cs.takeWhile isPySpace, cs.dropWhile isPySpace)
    else if isLowerAZ c then
      some (.IDENTIFIER, c :: cs.takeWhile isLowerAZ, cs.dropWhile isLowerAZ)
    else if isDigit09 c then
      some (.INTEGER, c :: cs.takeWhile isDigit09, cs.dropWhile isDigit09)
    else if isOpChar c then
      some (.OPERATOR, [c], cs)
    else if isDelimChar c then
      some (.DELIMITER, [c], cs)
    else
      none

/-- `lexeme.count("\n")`. -/
def countNewlines (lx : List Char) : Nat :=
  (lx.filter (fun c => c == '\n')).length

/-- `len(lexeme) - lexeme.rfind("\n") - 1`: the number of characters
strictly after the last newline of `lx` (meaningful when `lx` contains a
newline), computed as the length of the maximal newline-free suffix. -/
def charsAfterLastNewline (lx : List Char) : Nat :=
  (lx.reverse.takeWhile (fun c => c != '\n')).length

namespace Lexer

/-- `Lexer._advance_position(lexeme, line, col)`. -/
def advancePosition (lx : List Char) (line col : Nat) : Nat × Nat :=
  if countNewlines lx = 0 then
    (line, col + lx.length)
  else
    (line + countNewlines lx, 1 + charsAfterLastNewline lx)

end Lexer

/-- Append one emitted token in front of the result of scanning the rest
(`tokens.append(Token(token_type, lexeme, start_line, start_col))` in the
accumulating loop, read off as a cons in the recursive formulation). -/
def emitTok (tt : TokenType) (lx : List Char) (line col : Nat)
    (r : Option (Except LexError (List Token))) :
    Option (Except LexError (List Token)) :=
  r.map (Except.map (fun ts => Token.mk tt (String.mk lx) line col :: ts))

/-- The `while pos < len(text)` loop of `Lexer.tokenize`, on the remaining
input.  `fuel` bounds the number of loop iterations; since every match
consumes at least one character, `fuel = length input` always suffices and
the `none` outcome is unreachable from `tokenize`. -/
def tokenizeFuel : Nat → List Char → Nat → Nat →
    Option (Except LexError (List Token))
  | _, [], _, _ => some (.ok [])
  | 0, _ :: _, _, _ => none
  | fuel + 1, ch :: cs, line, col =>
    match masterMatch (ch :: cs) with
    | none => some (.error (LexError.mk ch line col))
    | some (kind, lx, rest) =>
      let pos := Lexer.advancePosition lx line col
      match kind with
      | .WHITESPACE => tokenizeFuel fuel rest pos.1 pos.2
      | .IDENTIFIER =>
        emitTok
          (if keywords.contains (String.mk lx) then .KEYWORD else .IDENTIFIER)
          lx line col (tokenizeFuel fuel rest pos.1 pos.2)
      | .INTEGER => emitTok .INTEGER lx line col (tokenizeFuel fuel rest pos.1 pos.2)
      | .OPERATOR => emitTok .OPERATOR lx line col (tokenizeFuel fuel rest pos.1 pos.2)
      | .DELIMITER => emitTok .DELIMITER lx line col (tokenizeFuel fuel rest pos.1 pos.2)

/-- `Lexer.tokenize(text)`: run the scanning loop from `pos = 0`,
`line = 1`, `col = 1`.  The default is never consulted
(`tokenizeFuel_some`). -/
def tokenize (s : String) : Except LexError (List Token) :=
  (tokenizeFuel s.data.length s.data 1 1).getD (.ok [])

/-- The position-independent part of a token: its category and lexeme
(`Token.type` and `Token.lexeme`, without `line`/`col`). -/
def tokenShape (t : Token) : TokenType × String :=
  (t.type, t.lexeme)

/-- Categories and lexemes of a token sequence, positions forgotten. -/
def tokenShapes (ts : List Token) : List (TokenType × String) :=
  ts.map tokenShape

/-- A scan outcome with positions forgotten: the offending character of an
error, or the categories and lexemes of the emitted tokens. -/
def shapeR : Except LexError (List Token) → Except Char (List (TokenType × String))
  | .error e => .error e.char
  | .ok ts => .ok (tokenShapes ts)

/-- Interleave whitespace spans around token lexemes:
`glue [w0, ..., wn] [l0, ..., l(n-1)] = w0 ++ l0 ++ w1 ++ ... ++ l(n-1) ++ wn`
(trailing spans are appended once the lexemes run out). -/
def glue : List (List Char) → List (List Char) → List Char
  | ws, [] => ws.flatten
  | [], lx :: lxs => lx ++ glue [] lxs
  | w :: ws, lx :: lxs => w ++ lx ++ glue ws lxs

/-- Well-formedness of one emitted token: its lexeme has exactly the shape
of its category's pattern, a keyword is a reserved word, and an identifier
is not. -/
def tokenWF (t : Token) : Prop :=
  match t.type with
  | .KEYWORD => t.lexeme ∈ keywords
  | .IDENTIFIER =>
      t.lexeme.data ≠ [] ∧ (∀ c ∈ t.lexeme.data, isLowerAZ c = true) ∧
      t.lexeme ∉ keywords
  | .INTEGER => t.lexeme.data ≠ [] ∧ ∀ c ∈ t.lexeme.data, isDigit09 c = true
  | .OPERATOR => ∃ c, t.lexeme.data = [c] ∧ isOpChar c = true
  | .DELIMITER => ∃ c, t.lexeme.data = [c] ∧ isDelimChar c = true

/-- Strict source order on token start positions: lexicographic on
`(line, col)`. -/
def posLt (a b : Token) : Prop :=
  a.line < b.line ∨ (a.line = b.line ∧ a.col < b.col)

/-- The character class of each alternative of `master_pattern`. -/
def classOf : MatchKind → (Char → Bool)
  | .WHITESPACE => isPySpace
  | .IDENTIFIER => isLowerAZ
  | .INTEGER => isDigit09
  | .OPERATOR => isOpChar
  | .DELIMITER => isDelimChar

/-! ## General list helper lemmas -/

theorem takeWhile_append_all {α : Type} {p : α → Bool} {l : List α}
    (r : List α) (h : ∀ x ∈ l, p x = true) :
    (l ++ r).takeWhile p = l ++ r.takeWhile p := by
  induction l with
  | nil => simp
  | cons a l ih =>
    have ha : p a = true := h a (List.mem_cons_self a l)
    simp only [List.cons_append, List.takeWhile_cons, ha, if_true]
    rw [ih fun x hx => h x (List.mem_cons_of_mem a hx)]

theorem dropWhile_append_all {α : Type} {p : α → Bool} {l : List α}
    (r : List α) (h : ∀ x ∈ l, p x = true) :
    (l ++ r).dropWhile p = r.dropWhile p := by
  induction l with
  | nil => simp
  | cons a l ih =>
    have ha : p a = true := h a (List.mem_cons_self a l)
    simp only [List.cons_append, List.dropWhile_cons, ha, if_true]
    exact ih fun x hx => h x (List.mem_cons_of_mem a hx)

theorem takeWhile_append_stop {α : Type} {p : α → Bool} {l : List α}
    (r : List α) (h : l.dropWhile p ≠ []) :
    (l ++ r).takeWhile p = l.takeWhile p := by
  induction l with
  | nil => simp [List.dropWhile] at h
  | cons a l ih =>
    by_cases ha : p a = true
    · simp only [List.dropWhile_cons, ha, if_true] at h
      simp only [List.cons_append, List.takeWhile_cons, ha, if_true, ih h]
    · have ha' : p a = false := by simpa using ha
      simp only [List.cons_append, List.takeWhile_cons, ha', Bool.false_eq_true, if_false]

theorem dropWhile_append_stop {α : Type} {p : α → Bool} {l : List α}
    (r : List α) (h : l.dropWhile p ≠ []) :
    (l ++ r).dropWhile p = l.dropWhile p ++ r := by
  induction l with
  | nil => simp [List.dropWhile] at h
  | cons a l ih =>
    by_cases ha : p a = true
    · simp only [List.dropWhile_cons, ha, if_true] at h
      simp only [List.cons_append, List.dropWhile_cons, ha, if_true, ih h]
    · have ha' : p a = false := by simpa using ha
      simp only [List.cons_append, List.dropWhile_cons, ha', Bool.false_eq_true, if_false]

/-! ## Character class disjointness -/

theorem isLowerAZ_not_pySpace {c : Char} (h : isLowerAZ c = true) :
    isPySpace c = false := by
  simp only [isLowerAZ, decide_eq_true_eq] at h
  simp only [isPySpace, Bool.or_eq_false_iff, decide_eq_false_iff_not]
  omega

theorem isDigit09_not_pySpace {c : Char} (h : isDigit09 c = true) :
    isPySpace c = false := by
  simp only [isDigit09, decide_eq_true_eq] at h
  simp only [isPySpace, Bool.or_eq_false_iff, decide_eq_false_iff_not]
  omega

theorem isDigit09_not_lower {c : Char} (h : isDigit09 c = true) :
    isLowerAZ c = false := by
  simp only [isDigit09, decide_eq_true_eq] at h
  simp only [isLowerAZ, decide_eq_false_iff_not]
  omega

theorem isOpChar_cases {c : Char} (h : isOpChar c = true) :
    c = '+' ∨ c = '-' ∨ c = '*' ∨ c = '/' ∨ c = '=' := by
  simpa [isOpChar, beq_iff_eq, or_assoc] using h

theorem isOpChar_not_others {c : Char} (h : isOpChar c = true) :
    isPySpace c = false ∧ isLowerAZ c = false ∧ isDigit09 c = false := by
  rcases isOpChar_cases h with rfl | rfl | rfl | rfl | rfl <;> exact ⟨rfl, rfl, rfl⟩

theorem isDelimChar_cases {c : Char} (h : isDelimChar c = true) :
    c = '(' ∨ c = ')' ∨ c = ';' := by
  simpa [isDelimChar, beq_iff_eq, or_assoc] using h

theorem isDelimChar_not_others {c : Char} (h : isDelimChar c = true) :
    isPySpace c = false ∧ isLowerAZ c = false ∧ isDigit09 c = false ∧
    isOpChar c = false := by
  rcases isDelimChar_cases h with rfl | rfl | rfl <;> exact ⟨rfl, rfl, rfl, rfl⟩

/-! ## masterMatch characterization -/

theorem masterMatch_nil : masterMatch [] = none := rfl

theorem masterMatch_ws {c : Char} (cs : List Char) (h : isPySpace c = true) :
    masterMatch (c :: cs) =
      some (.WHITESPACE, c :: cs.takeWhile isPySpace, cs.dropWhile isPySpace) := by
  simp [masterMatch, h]

theorem masterMatch_ident {c : Char} (cs : List Char) (h : isLowerAZ c = true) :
    masterMatch (c :: cs) =
      some (.IDENTIFIER, c :: cs.takeWhile isLowerAZ, cs.dropWhile isLowerAZ) := by
  simp [masterMatch, isLowerAZ_not_pySpace h, h]

theorem masterMatch_int {c : Char} (cs : List Char) (h : isDigit09 c = true) :
    masterMatch (c :: cs) =
      some (.INTEGER, c :: cs.takeWhile isDigit09, cs.dropWhile isDigit09) := by
  simp [masterMatch, isDigit09_not_pySpace h, isDigit09_not_lower h, h]

theorem masterMatch_op {c : Char} (cs : List Char) (h : isOpChar c = true) :
    masterMatch (c :: cs) = some (.OPERATOR, [c], cs) := by
  obtain ⟨h1, h2, h3⟩ := isOpChar_not_others h
  simp [masterMatch, h1, h2, h3, h]

theorem masterMatch_delim {c : Char} (cs : List Char) (h : isDelimChar c = true) :
    masterMatch (c :: cs) = some (.DELIMITER, [c], cs) := by
  obtain ⟨h1, h2, h3, h4⟩ := isDelimChar_not_others h
  simp [masterMatch, h1, h2, h3, h4, h]

theorem masterMatch_none_iff {c : Char} {cs : List Char} :
    masterMatch (c :: cs) = none ↔ recognizedChar c = false := by
  simp only [masterMatch, recognizedChar]
  split_ifs with h1 h2 h3 h4 h5 <;> simp_all

/-- Every successful match splits the input into a non-empty lexeme whose
characters all lie in the matched alternative's class, followed by the
rest of the input. -/
theorem masterMatch_decomp {input lx rest : List Char} {k : MatchKind}
    (h : masterMatch input = some (k, lx, rest)) :
    input = lx ++ rest ∧ lx ≠ [] ∧ (∀ x ∈ lx, classOf k x = true) := by
  match input with
  | [] => simp [masterMatch] at h
  | c :: cs =>
    simp only [masterMatch] at h
    split_ifs at h with h1 h2 h3 h4 h5
    · simp only [Option.some.injEq, Prod.mk.injEq] at h
      obtain ⟨hk, hlx, hrest⟩ := h
      subst hk; subst hlx; subst hrest
      refine ⟨by simp [List.takeWhile_append_dropWhile], by simp, ?_⟩
      intro x hx
      rcases List.mem_cons.1 hx with rfl | hx
      · exact h1
      · exact List.mem_takeWhile_imp hx
    · simp only [Option.some.injEq, Prod.mk.injEq] at h
      obtain ⟨hk, hlx, hrest⟩ := h
      subst hk; subst hlx; subst hrest
      refine ⟨by simp [List.takeWhile_append_dropWhile], by simp, ?_⟩
      intro x hx
      rcases List.mem_cons.1 hx with rfl | hx
      · exact h2
      · exact List.mem_takeWhile_imp hx
    · simp only [Option.some.injEq, Prod.mk.injEq] at h
      obtain ⟨hk, hlx, hrest⟩ := h
      subst hk; subst hlx; subst hrest
      refine ⟨by simp [List.takeWhile_append_dropWhile], by simp, ?_⟩
      intro x hx
      rcases List.mem_cons.1 hx with rfl | hx
      · exact h3
      · exact List.mem_takeWhile_imp hx
    · simp only [Option.some.injEq, Prod.mk.injEq] at h
      obtain ⟨hk, hlx, hrest⟩ := h
      subst hk; subst hlx; subst hrest
      refine ⟨rfl, by simp, ?_⟩
      intro x hx
      rw [List.mem_singleton] at hx
      subst hx
      exact h4
    · simp only [Option.some.injEq, Prod.mk.injEq] at h
      obtain ⟨hk, hlx, hrest⟩ := h
      subst hk; subst hlx; subst hrest
      refine ⟨rfl, by simp, ?_⟩
      intro x hx
      rw [List.mem_singleton] at hx
      subst hx
      exact h5

/-! ## Fuel adequacy: `length input` iterations always suffice -/

theorem tokenizeFuel_nil (fuel l c : Nat) :
    tokenizeFuel fuel [] l c = some (.ok []) := by
  cases fuel <;> rfl

theorem masterMatch_rest_lt {input lx rest : List Char} {k : MatchKind}
    (h : masterMatch input = some (k, lx, rest)) :
    rest.length < input.length := by
  obtain ⟨heq, hne, -⟩ := masterMatch_decomp h
  have : input.length = lx.length + rest.length := by rw [heq]; simp
  have : 1 ≤ lx.length := List.length_pos.2 hne
  omega

theorem tokenizeFuel_isSome (fuel : Nat) :
    ∀ input l c, input.length ≤ fuel →
      (tokenizeFuel fuel input l c).isSome = true := by
  induction fuel with
  | zero =>
    intro input l c h
    cases input with
    | nil => rw [tokenizeFuel_nil]; rfl
    | cons ch cs => simp at h
  | succ fuel ih =>
    intro input l c h
    cases input with
    | nil => rw [tokenizeFuel_nil]; rfl
    | cons ch cs =>
      cases hm : masterMatch (ch :: cs) with
      | none => simp [tokenizeFuel, hm]
      | some klr =>
        obtain ⟨k, lx, rest⟩ := klr
        have hrest : rest.length ≤ fuel := by
          have hlt := masterMatch_rest_lt hm
          rw [List.length_cons] at hlt
          rw [List.length_cons] at h
          omega
        cases k <;>
          simp only [tokenizeFuel, hm, emitTok, Option.isSome_map'] <;>
          exact ih rest _ _ hrest

theorem tokenize_eq_iff {s : String} {r : Except LexError (List Token)} :
    tokenize s = r ↔ tokenizeFuel s.data.length s.data 1 1 = some r := by
  have h := tokenizeFuel_isSome s.data.length s.data 1 1 le_rfl
  obtain ⟨r0, hr0⟩ := Option.isSome_iff_exists.1 h
  unfold tokenize
  rw [hr0]
  simp

/-- Fuel does not influence a successful scan: two sufficient-fuel runs on
the same remaining input and cursor state agree. -/
theorem tokenizeFuel_det (fuel : Nat) :
    ∀ {fuel' : Nat} {input : List Char} {l c : Nat}
      {r r' : Except LexError (List Token)},
      tokenizeFuel fuel input l c = some r →
      tokenizeFuel fuel' input l c = some r' → r = r' := by
  induction fuel with
  | zero =>
    intro fuel' input l c r r' h h'
    cases input with
    | nil =>
      rw [tokenizeFuel_nil] at h h'
      rw [Option.some_inj] at h h'
      rw [← h, ← h']
    | cons ch cs => simp [tokenizeFuel] at h
  | succ fuel ih =>
    intro fuel' input l c r r' h h'
    cases input with
    | nil =>
      rw [tokenizeFuel_nil] at h h'
      rw [Option.some_inj] at h h'
      rw [← h, ← h']
    | cons ch cs =>
      cases fuel' with
      | zero => simp [tokenizeFuel] at h'
      | succ fuel'' =>
        cases hm : masterMatch (ch :: cs) with
        | none =>
          simp only [tokenizeFuel, hm, Option.some_inj] at h h'
          rw [← h, ← h']
        | some klr =>
          obtain ⟨k, lx, rest⟩ := klr
          cases k <;> simp only [tokenizeFuel, hm, emitTok] at h h'
          · exact ih h h'
          all_goals
            obtain ⟨a, ha, hfa⟩ := Option.map_eq_some'.1 h
            obtain ⟨a', ha', hfa'⟩ := Option.map_eq_some'.1 h'
            rw [← hfa, ← hfa', ih ha ha']

/-! ## Further characterization lemmas -/

theorem classOf_recognized {k : MatchKind} {c : Char}
    (h : classOf k c = true) : recognizedChar c = true := by
  cases k <;> simp_all [classOf, recognizedChar]

theorem isPySpace_not_lower {c : Char} (h : isPySpace c = true) :
    isLowerAZ c = false := by
  simp only [isPySpace, Bool.or_eq_true, decide_eq_true_eq] at h
  simp only [isLowerAZ, decide_eq_false_iff_not]
  omega

theorem isPySpace_not_digit {c : Char} (h : isPySpace c = true) :
    isDigit09 c = false := by
  simp only [isPySpace, Bool.or_eq_true, decide_eq_true_eq] at h
  simp only [isDigit09, decide_eq_false_iff_not]
  omega

theorem masterMatch_shape_ws {c : Char} {cs lx rest : List Char}
    (h : masterMatch (c :: cs) = some (.WHITESPACE, lx, rest)) :
    isPySpace c = true ∧ lx = c :: cs.takeWhile isPySpace ∧
    rest = cs.dropWhile isPySpace := by
  simp only [masterMatch] at h
  split_ifs at h with h1 h2 h3 h4 h5 <;> simp_all

theorem masterMatch_shape_ident {c : Char} {cs lx rest : List Char}
    (h : masterMatch (c :: cs) = some (.IDENTIFIER, lx, rest)) :
    isLowerAZ c = true ∧ lx = c :: cs.takeWhile isLowerAZ ∧
    rest = cs.dropWhile isLowerAZ := by
  simp only [masterMatch] at h
  split_ifs at h with h1 h2 h3 h4 h5 <;> simp_all

theorem masterMatch_shape_int {c : Char} {cs lx rest : List Char}
    (h : masterMatch (c :: cs) = some (.INTEGER, lx, rest)) :
    isDigit09 c = true ∧ lx = c :: cs.takeWhile isDigit09 ∧
    rest = cs.dropWhile isDigit09 := by
  simp only [masterMatch] at h
  split_ifs at h with h1 h2 h3 h4 h5 <;> simp_all

theorem masterMatch_shape_op {c : Char} {cs lx rest : List Char}
    (h : masterMatch (c :: cs) = some (.OPERATOR, lx, rest)) :
    isOpChar c = true ∧ lx = [c] ∧ rest = cs := by
  simp only [masterMatch] at h
  split_ifs at h with h1 h2 h3 h4 h5 <;> simp_all

theorem masterMatch_shape_delim {c : Char} {cs lx rest : List Char}
    (h : masterMatch (c :: cs) = some (.DELIMITER, lx, rest)) :
    isDelimChar c = true ∧ lx = [c] ∧ rest = cs := by
  simp only [masterMatch] at h
  split_ifs at h with h1 h2 h3 h4 h5 <;> simp_all

/-- Introduction form of an emission step: consing the emitted token onto
a successful scan of the rest. -/
theorem emitTok_ok_intro {tt : TokenType} {lx : List Char} {line col : Nat}
    {r : Option (Except LexError (List Token))} {ts' : List Token}
    (h : r = some (.ok ts')) :
    emitTok tt lx line col r =
      some (.ok (Token.mk tt (String.mk lx) line col :: ts')) := by
  simp [emitTok, h, Except.map]

/-- Unfolding an emission step: a successful token-producing iteration is
the emitted token consed onto a successful scan of the rest. -/
theorem emitTok_ok {tt : TokenType} {lx : List Char} {line col : Nat}
    {r : Option (Except LexError (List Token))} {ts : List Token}
    (h : emitTok tt lx line col r = some (.ok ts)) :
    ∃ ts', r = some (.ok ts') ∧
      ts = Token.mk tt (String.mk lx) line col :: ts' := by
  unfold emitTok at h
  obtain ⟨a, ha, hfa⟩ := Option.map_eq_some'.1 h
  cases a with
  | error e => simp [Except.map] at hfa
  | ok ts' =>
    refine ⟨ts', ha, ?_⟩
    simp only [Except.map, Except.ok.injEq] at hfa
    exact hfa.symm

/-! ## Claim theorems -/

/-- C1: tokenizing `"if (x = 10) x = x + 1;"` succeeds and yields exactly
twelve tokens, in order: Keyword "if" (1,1), Delimiter "(" (1,4),
Identifier "x" (1,5), Operator "=" (1,7), Integer "10" (1,9),
Delimiter ")" (1,11), Identifier "x" (1,13), Operator "=" (1,15),
Identifier "x" (1,17), Operator "+" (1,19), Integer "1" (1,21),
Delimiter ";" (1,22), each carrying the 1-based line and column of its
first character. -/
theorem tokenize_position_correctness_demo :
    tokenize "if (x = 10) x = x + 1;" = .ok
      [Token.mk .KEYWORD "if" 1 1,
       Token.mk .DELIMITER "(" 1 4,
       Token.mk .IDENTIFIER "x" 1 5,
       Token.mk .OPERATOR "=" 1 7,
       Token.mk .INTEGER "10" 1 9,
       Token.mk .DELIMITER ")" 1 11,
       Token.mk .IDENTIFIER "x" 1 13,
       Token.mk .OPERATOR "=" 1 15,
       Token.mk .IDENTIFIER "x" 1 17,
       Token.mk .OPERATOR "+" 1 19,
       Token.mk .INTEGER "1" 1 21,
       Token.mk .DELIMITER ";" 1 22] := rfl

/-- C6: the identifier alternative consumes the whole maximal lowercase
run at the cursor before the reserved-word check, so a lowercase run that
merely begins with a reserved word is one single Identifier token:
`"ifx"` is one Identifier `"ifx"` (the match itself covers all of
`"ifx"`), never Keyword `"if"` followed by Identifier `"x"`. -/
theorem ifx_single_identifier :
    tokenize "ifx" = .ok [Token.mk .IDENTIFIER "ifx" 1 1] ∧
    masterMatch "ifx".data = some (.IDENTIFIER, "ifx".data, []) :=
  ⟨rfl, rfl⟩

/-- C2: for every matched span, line/column advance by one uniform rule:
zero newlines in the span leave the line unchanged and add the span's
length to the column; with `k ≥ 1` newlines the line grows by `k` and the
column becomes 1 plus the number of characters after the last newline
(stated both through `charsAfterLastNewline` and through an explicit
last-newline decomposition of the span); and input `"x\n  y"` yields
Identifier "x" at (1,1) then Identifier "y" at (2,3). -/
theorem advance_position_uniform_rule :
    (∀ lx line col, Lexer.advancePosition lx line col =
      if countNewlines lx = 0 then (line, col + lx.length)
      else (line + countNewlines lx, 1 + charsAfterLastNewline lx)) ∧
    (∀ a b line col, (∀ c ∈ b, c ≠ '\n') →
      Lexer.advancePosition (a ++ '\n' :: b) line col =
        (line + countNewlines (a ++ '\n' :: b), 1 + b.length)) ∧
    tokenize "x\n  y" = .ok
      [Token.mk .IDENTIFIER "x" 1 1, Token.mk .IDENTIFIER "y" 2 3] := by
  refine ⟨fun lx line col => rfl, ?_, rfl⟩
  intro a b line col hb
  have hk : countNewlines (a ++ '\n' :: b) ≠ 0 := by
    simp [countNewlines, List.filter_append]
  have hc : charsAfterLastNewline (a ++ '\n' :: b) = b.length := by
    unfold charsAfterLastNewline
    rw [List.reverse_append, List.reverse_cons]
    have h1 : b.reverse ++ ['\n'] ++ a.reverse = b.reverse ++ ('\n' :: a.reverse) := by
      simp
    rw [h1, takeWhile_append_all ('\n' :: a.reverse)
      (fun x hx => by simpa using hb x (List.mem_reverse.1 hx))]
    simp [List.takeWhile_cons]
  unfold Lexer.advancePosition
  rw [if_neg hk, hc]

/-- Witness for C2: the last-newline rule evaluated on the concrete span
`"x\n y" ++ "y"`-shaped list with two characters after its newline. -/
theorem advance_position_uniform_rule_witness :
    Lexer.advancePosition (['x'] ++ '\n' :: [' ', 'y']) 5 7 = (6, 3) :=
  advance_position_uniform_rule.2.1 ['x'] [' ', 'y'] 5 7 (by decide)

/-- C4 counterexample: the claim says any character outside lowercase
runs, digit runs, the operator set, the delimiter set and
space/tab/newline is fatal at the cursor; but carriage return is none of
those and yet `tokenize "\r"` succeeds (Python's `\s` also matches CR, so
the whitespace rule silently consumes it). -/
theorem whitespace_class_counterexample :
    tokenize "\r" = .ok [] ∧
    ('\r' ∉ [' ', '\t', '\n']) ∧
    isLowerAZ '\r' = false ∧ isDigit09 '\r' = false ∧
    isOpChar '\r' = false ∧ isDelimChar '\r' = false :=
  ⟨rfl, by decide, rfl, rfl, rfl, rfl⟩

/-- C4 amended: the non-emitting whitespace rule matches exactly runs of
one or more characters of Python's `\s` class (space, tab, newline,
carriage return, vertical tab, form feed, the separators U+001C..U+001F
and the Unicode whitespace characters) — an input made entirely of such
characters tokenizes to the empty sequence with no token emitted — and
any character outside the union of that class and the other four category
patterns is fatal at the cursor: scanning it alone raises a LexicalError
carrying exactly that character. -/
theorem whitespace_class_amended :
    (∀ s : String, (∀ c ∈ s.data, isPySpace c = true) → tokenize s = .ok []) ∧
    (∀ c : Char, recognizedChar c = false →
      tokenize (String.mk [c]) = .error (LexError.mk c 1 1)) := by
  constructor
  · intro s hs
    rw [tokenize_eq_iff]
    cases hd : s.data with
    | nil => rw [tokenizeFuel_nil]
    | cons ch cs =>
      rw [hd] at hs
      have hch : isPySpace ch = true := hs ch (List.mem_cons_self ch cs)
      have hcs : ∀ x ∈ cs, isPySpace x = true :=
        fun x hx => hs x (List.mem_cons_of_mem ch hx)
      have hm := masterMatch_ws cs hch
      rw [List.takeWhile_eq_self_iff.2 hcs, List.dropWhile_eq_nil_iff.2 hcs] at hm
      rw [List.length_cons]
      simp only [tokenizeFuel, hm]
  · intro c hc
    have hm : masterMatch [c] = none := masterMatch_none_iff.2 hc
    rw [tokenize_eq_iff]
    simp [tokenizeFuel, hm]

/-- Witness for C4 amended: a mixed whitespace run (space, CR, LF)
tokenizes to the empty sequence, and an uppercase letter alone is a
positioned lexical error. -/
theorem whitespace_class_amended_witness :
    tokenize " \r\n" = .ok [] ∧
    tokenize (String.mk ['A']) = .error (LexError.mk 'A' 1 1) :=
  ⟨whitespace_class_amended.1 " \r\n" (by decide),
   whitespace_class_amended.2 'A' (by decide)⟩

/-- A successful scan only ever consumes recognized characters. -/
theorem tokenizeFuel_ok_recognized (fuel : Nat) :
    ∀ input l c ts, tokenizeFuel fuel input l c = some (.ok ts) →
      ∀ ch ∈ input, recognizedChar ch = true := by
  induction fuel with
  | zero =>
    intro input l c ts h ch hch
    cases input with
    | nil => simp at hch
    | cons a as => simp [tokenizeFuel] at h
  | succ fuel ih =>
    intro input l c ts h ch hch
    cases input with
    | nil => simp at hch
    | cons a as =>
      cases hm : masterMatch (a :: as) with
      | none => simp [tokenizeFuel, hm] at h
      | some klr =>
        obtain ⟨k, lx, rest⟩ := klr
        obtain ⟨heq, -, hclass⟩ := masterMatch_decomp hm
        rw [heq] at hch
        rcases List.mem_append.1 hch with hin | hin
        · exact classOf_recognized (hclass ch hin)
        · cases k <;> simp only [tokenizeFuel, hm] at h
          · exact ih rest _ _ ts h ch hin
          all_goals
            obtain ⟨ts', hrec, -⟩ := emitTok_ok h
            exact ih rest _ _ ts' hrec ch hin

/-- If every character of the remaining input is recognized, the scan
succeeds. -/
theorem tokenizeFuel_recognized_ok (fuel : Nat) :
    ∀ input l c, input.length ≤ fuel →
      (∀ ch ∈ input, recognizedChar ch = true) →
      ∃ ts, tokenizeFuel fuel input l c = some (.ok ts) := by
  induction fuel with
  | zero =>
    intro input l c hlen _
    cases input with
    | nil => exact ⟨[], tokenizeFuel_nil 0 l c⟩
    | cons a as => simp at hlen
  | succ fuel ih =>
    intro input l c hlen hrec
    cases input with
    | nil => exact ⟨[], tokenizeFuel_nil _ l c⟩
    | cons a as =>
      cases hm : masterMatch (a :: as) with
      | none =>
        have := masterMatch_none_iff.1 hm
        rw [hrec a (List.mem_cons_self a as)] at this
        cases this
      | some klr =>
        obtain ⟨k, lx, rest⟩ := klr
        obtain ⟨heq, -, -⟩ := masterMatch_decomp hm
        have hsub : ∀ ch ∈ rest, recognizedChar ch = true := by
          intro ch hch
          exact hrec ch (heq ▸ List.mem_append.2 (Or.inr hch))
        have hlen' : rest.length ≤ fuel := by
          have := masterMatch_rest_lt hm
          rw [List.length_cons] at this
          rw [List.length_cons] at hlen
          omega
        obtain ⟨ts', hts'⟩ :=
          ih rest (Lexer.advancePosition lx l c).1 (Lexer.advancePosition lx l c).2
            hlen' hsub
        cases k
        · exact ⟨ts', by simp only [tokenizeFuel, hm]; exact hts'⟩
        all_goals
          exact ⟨_, by simp only [tokenizeFuel, hm]; exact emitTok_ok_intro hts'⟩

/-- C3: the scan fails exactly when it reaches an unrecognized character:
a successful result exists precisely when every character of the input is
covered by some category pattern (so the error, which is terminal by the
result type, is the single offending character at the cursor with its
1-based position); `"x = A;"` fails reporting `'A'` at line 1, column 5;
the empty input yields the empty sequence with no error. -/
theorem lexical_error_characterization :
    tokenize "" = .ok [] ∧
    tokenize "x = A;" = .error (LexError.mk 'A' 1 5) ∧
    ∀ s : String,
      (∃ ts, tokenize s = .ok ts) ↔ (∀ c ∈ s.data, recognizedChar c = true) := by
  refine ⟨rfl, rfl, fun s => ⟨?_, ?_⟩⟩
  · rintro ⟨ts, hts⟩
    exact tokenizeFuel_ok_recognized _ _ _ _ ts (tokenize_eq_iff.1 hts)
  · intro h
    obtain ⟨ts, hts⟩ :=
      tokenizeFuel_recognized_ok s.data.length s.data 1 1 le_rfl h
    exact ⟨ts, tokenize_eq_iff.2 hts⟩

/-- C5: a non-empty all-lowercase input is consumed as one single
identifier-shaped match covering the whole input, reclassified to Keyword
exactly when the matched text is a member of `reserved_words`
(`{"if","else","while"}`); otherwise it stays one Identifier token. -/
theorem keyword_vs_identifier_single_token :
    ∀ s : String, s.data ≠ [] → (∀ c ∈ s.data, isLowerAZ c = true) →
      tokenize s = .ok
        [Token.mk (if keywords.contains s then .KEYWORD else .IDENTIFIER) s 1 1] := by
  intro s hne hlow
  rw [tokenize_eq_iff]
  cases hd : s.data with
  | nil => exact absurd hd hne
  | cons ch cs =>
    have hmk : String.mk (ch :: cs) = s := by rw [← hd]
    rw [hd] at hlow
    have hch : isLowerAZ ch = true := hlow ch (List.mem_cons_self ch cs)
    have hcs : ∀ x ∈ cs, isLowerAZ x = true :=
      fun x hx => hlow x (List.mem_cons_of_mem ch hx)
    have hm := masterMatch_ident cs hch
    rw [List.takeWhile_eq_self_iff.2 hcs, List.dropWhile_eq_nil_iff.2 hcs] at hm
    rw [List.length_cons]
    simp only [tokenizeFuel, hm, emitTok, tokenizeFuel_nil,
      Option.map_some', Except.map, hmk]

/-- Witness for C5: the reserved word `"while"` alone is one Keyword
token, and the non-reserved lowercase string `"foo"` alone is one
Identifier token. -/
theorem keyword_vs_identifier_single_token_witness :
    tokenize "while" = .ok [Token.mk .KEYWORD "while" 1 1] ∧
    tokenize "foo" = .ok [Token.mk .IDENTIFIER "foo" 1 1] :=
  ⟨keyword_vs_identifier_single_token "while" (by decide) (by decide),
   keyword_vs_identifier_single_token "foo" (by decide) (by decide)⟩

/-- Every token produced by a successful scan step is well-formed. -/
theorem tokenizeFuel_wf (fuel : Nat) :
    ∀ input l c ts, tokenizeFuel fuel input l c = some (.ok ts) →
      ∀ t ∈ ts, tokenWF t := by
  induction fuel with
  | zero =>
    intro input l c ts h t ht
    cases input with
    | nil =>
      rw [tokenizeFuel_nil] at h
      simp only [Option.some_inj, Except.ok.injEq] at h
      subst h
      simp at ht
    | cons a as => simp [tokenizeFuel] at h
  | succ fuel ih =>
    intro input l c ts h t ht
    cases input with
    | nil =>
      rw [tokenizeFuel_nil] at h
      simp only [Option.some_inj, Except.ok.injEq] at h
      subst h
      simp at ht
    | cons a as =>
      cases hm : masterMatch (a :: as) with
      | none => simp [tokenizeFuel, hm] at h
      | some klr =>
        obtain ⟨k, lx, rest⟩ := klr
        cases k
        · simp only [tokenizeFuel, hm] at h
          exact ih rest _ _ ts h t ht
        · simp only [tokenizeFuel, hm] at h
          obtain ⟨ts', hrec, hts⟩ := emitTok_ok h
          subst hts
          rcases List.mem_cons.1 ht with rfl | ht'
          · obtain ⟨-, hne, hclass⟩ := masterMatch_decomp hm
            by_cases hkw : keywords.contains (String.mk lx) = true
            · simp only [hkw, if_true]
              show String.mk lx ∈ keywords
              exact List.mem_of_elem_eq_true hkw
            · simp only [hkw, if_false]
              refine ⟨hne, hclass, ?_⟩
              intro hmem
              exact hkw (List.elem_eq_true_of_mem hmem)
          · exact ih rest _ _ ts' hrec t ht'
        · simp only [tokenizeFuel, hm] at h
          obtain ⟨ts', hrec, hts⟩ := emitTok_ok h
          subst hts
          rcases List.mem_cons.1 ht with rfl | ht'
          · obtain ⟨-, hne, hclass⟩ := masterMatch_decomp hm
            exact ⟨hne, hclass⟩
          · exact ih rest _ _ ts' hrec t ht'
        · simp only [tokenizeFuel, hm] at h
          obtain ⟨ts', hrec, hts⟩ := emitTok_ok h
          subst hts
          rcases List.mem_cons.1 ht with rfl | ht'
          · obtain ⟨hop, hlx, -⟩ := masterMatch_shape_op hm
            subst hlx
            exact ⟨a, rfl, hop⟩
          · exact ih rest _ _ ts' hrec t ht'
        · simp only [tokenizeFuel, hm] at h
          obtain ⟨ts', hrec, hts⟩ := emitTok_ok h
          subst hts
          rcases List.mem_cons.1 ht with rfl | ht'
          · obtain ⟨hdl, hlx, -⟩ := masterMatch_shape_delim hm
            subst hlx
            exact ⟨a, rfl, hdl⟩
          · exact ih rest _ _ ts' hrec t ht'

/-- C10: every token `tokenize` ever emits has a non-empty lexeme
conforming to its category: a Keyword's lexeme is a reserved word, an
Identifier's a non-empty lowercase run that is not reserved, an Integer's
a non-empty digit run, an Operator's a single character among
`+ - * / =`, a Delimiter's a single character among `( ) ;` — and the
category type is closed, so no other category is ever produced. -/
theorem tokens_wellformed :
    ∀ (s : String) (ts : List Token), tokenize s = .ok ts →
      ∀ t ∈ ts, tokenWF t :=
  fun _ ts h => tokenizeFuel_wf _ _ _ _ ts (tokenize_eq_iff.1 h)

/-- Witness for C10: the keyword token emitted for input `"if"` is
well-formed. -/
theorem tokens_wellformed_witness : tokenWF (Token.mk .KEYWORD "if" 1 1) :=
  tokens_wellformed "if" [Token.mk .KEYWORD "if" 1 1] rfl
    (Token.mk .KEYWORD "if" 1 1) (by simp)

/-- Consuming a non-empty lexeme strictly advances the cursor position in
the lexicographic (line, column) order: either the line grows, or the
line is unchanged and the column grows. -/
theorem advancePosition_strict (lx : List Char) (l c : Nat) (h : lx ≠ []) :
    l < (Lexer.advancePosition lx l c).1 ∨
    ((Lexer.advancePosition lx l c).1 = l ∧
     c < (Lexer.advancePosition lx l c).2) := by
  unfold Lexer.advancePosition
  by_cases hk : countNewlines lx = 0
  · rw [if_pos hk]
    right
    have : 1 ≤ lx.length := List.length_pos.2 h
    exact ⟨rfl, by omega⟩
  · rw [if_neg hk]
    left
    simp only
    omega

/-- Tokens emitted by a scan step are chained in strict source order and
all start at or after the current cursor position. -/
theorem tokenizeFuel_sorted (fuel : Nat) :
    ∀ input l c ts, tokenizeFuel fuel input l c = some (.ok ts) →
      List.Chain' posLt ts ∧
      ∀ t ∈ ts, l < t.line ∨ (l = t.line ∧ c ≤ t.col) := by
  induction fuel with
  | zero =>
    intro input l c ts h
    cases input with
    | nil =>
      rw [tokenizeFuel_nil] at h
      simp only [Option.some_inj, Except.ok.injEq] at h
      subst h
      exact ⟨List.chain'_nil, by simp⟩
    | cons a as => simp [tokenizeFuel] at h
  | succ fuel ih =>
    intro input l c ts h
    cases input with
    | nil =>
      rw [tokenizeFuel_nil] at h
      simp only [Option.some_inj, Except.ok.injEq] at h
      subst h
      exact ⟨List.chain'_nil, by simp⟩
    | cons a as =>
      cases hm : masterMatch (a :: as) with
      | none => simp [tokenizeFuel, hm] at h
      | some klr =>
        obtain ⟨k, lx, rest⟩ := klr
        obtain ⟨-, hne, -⟩ := masterMatch_decomp hm
        have hadv := advancePosition_strict lx l c hne
        cases k
        · simp only [tokenizeFuel, hm] at h
          obtain ⟨hch, hbound⟩ := ih rest _ _ ts h
          refine ⟨hch, fun t ht => ?_⟩
          rcases hadv with h1 | ⟨h1, h2⟩ <;> rcases hbound t ht with h3 | ⟨h3, h4⟩ <;>
            omega
        all_goals
          simp only [tokenizeFuel, hm] at h
          obtain ⟨ts', hrec, hts⟩ := emitTok_ok h
          subst hts
          obtain ⟨hch', hbound'⟩ := ih rest _ _ ts' hrec
          constructor
          · refine List.chain'_cons'.2 ⟨fun y hy => ?_, hch'⟩
            have hmem : y ∈ ts' := List.mem_of_mem_head? hy
            have hb := hbound' y hmem
            show _ < y.line ∨ (_ = y.line ∧ _ < y.col)
            simp only
            rcases hadv with h1 | ⟨h1, h2⟩ <;> rcases hb with h3 | ⟨h3, h4⟩ <;> omega
          · intro t ht
            rcases List.mem_cons.1 ht with rfl | ht'
            · right
              exact ⟨rfl, le_refl c⟩
            · have hb := hbound' t ht'
              rcases hadv with h1 | ⟨h1, h2⟩ <;> rcases hb with h3 | ⟨h3, h4⟩ <;>
                omega

/-- C9: for every input on which `tokenize` succeeds, the token sequence
is in strictly increasing source order: consecutive tokens have strictly
lexicographically increasing (line, column) start pairs, and in
particular line numbers never decrease along the sequence. -/
theorem tokens_strictly_ordered :
    ∀ (s : String) (ts : List Token), tokenize s = .ok ts →
      List.Chain' posLt ts ∧
      List.Chain' (fun a b => a.line ≤ b.line) ts := by
  intro s ts h
  have h1 := (tokenizeFuel_sorted _ _ _ _ ts (tokenize_eq_iff.1 h)).1
  refine ⟨h1, List.Chain'.imp ?_ h1⟩
  intro a b hab
  have hab' : a.line < b.line ∨ (a.line = b.line ∧ a.col < b.col) := hab
  rcases hab' with h' | ⟨h', -⟩ <;> omega

/-- Witness for C9: the two tokens of `"x\n  y"` are in strict source
order with non-decreasing lines. -/
theorem tokens_strictly_ordered_witness :
    List.Chain' posLt
      [Token.mk .IDENTIFIER "x" 1 1, Token.mk .IDENTIFIER "y" 2 3] ∧
    List.Chain' (fun a b => a.line ≤ b.line)
      [Token.mk .IDENTIFIER "x" 1 1, Token.mk .IDENTIFIER "y" 2 3] :=
  tokens_strictly_ordered "x\n  y"
    [Token.mk .IDENTIFIER "x" 1 1, Token.mk .IDENTIFIER "y" 2 3] rfl

/-- Prefixing the first whitespace span of an interleaving prepends to the
glued string. -/
theorem glue_cons_prepend (a w : List Char) (ws lxs : List (List Char)) :
    glue ((a ++ w) :: ws) lxs = a ++ glue (w :: ws) lxs := by
  cases lxs with
  | nil => simp [glue, List.flatten_cons, List.append_assoc]
  | cons lx lxs => simp [glue, List.append_assoc]

/-- A successful scan tiles its input: there are whitespace spans, one
more than there are tokens, interleaving with the token lexemes to
reconstruct the input exactly. -/
theorem tokenizeFuel_glue (fuel : Nat) :
    ∀ input l c ts, tokenizeFuel fuel input l c = some (.ok ts) →
      ∃ ws : List (List Char), ws.length = ts.length + 1 ∧
        (∀ sp ∈ ws, ∀ ch ∈ sp, isPySpace ch = true) ∧
        glue ws (ts.map fun t => t.lexeme.data) = input := by
  induction fuel with
  | zero =>
    intro input l c ts h
    cases input with
    | nil =>
      rw [tokenizeFuel_nil] at h
      simp only [Option.some_inj, Except.ok.injEq] at h
      subst h
      exact ⟨[[]], rfl, by simp, by simp [glue]⟩
    | cons a as => simp [tokenizeFuel] at h
  | succ fuel ih =>
    intro input l c ts h
    cases input with
    | nil =>
      rw [tokenizeFuel_nil] at h
      simp only [Option.some_inj, Except.ok.injEq] at h
      subst h
      exact ⟨[[]], rfl, by simp, by simp [glue]⟩
    | cons a as =>
      cases hm : masterMatch (a :: as) with
      | none => simp [tokenizeFuel, hm] at h
      | some klr =>
        obtain ⟨k, lx, rest⟩ := klr
        obtain ⟨heq, -, hclass⟩ := masterMatch_decomp hm
        cases k
        · simp only [tokenizeFuel, hm] at h
          obtain ⟨ws, hlen, hsp, hglue⟩ := ih rest _ _ ts h
          cases ws with
          | nil => simp at hlen
          | cons w0 ws' =>
            refine ⟨(lx ++ w0) :: ws', by simpa using hlen, ?_, ?_⟩
            · intro sp hsp' ch hch
              rcases List.mem_cons.1 hsp' with rfl | hsp''
              · rcases List.mem_append.1 hch with hin | hin
                · exact hclass ch hin
                · exact hsp w0 (List.mem_cons_self w0 ws') ch hin
              · exact hsp sp (List.mem_cons_of_mem w0 hsp'') ch hch
            · rw [glue_cons_prepend, hglue, heq]
        all_goals
          simp only [tokenizeFuel, hm] at h
          obtain ⟨ts', hrec, hts⟩ := emitTok_ok h
          subst hts
          obtain ⟨ws, hlen, hsp, hglue⟩ := ih rest _ _ ts' hrec
          refine ⟨[] :: ws, by simpa using hlen, ?_, ?_⟩
          · intro sp hsp' ch hch
            rcases List.mem_cons.1 hsp' with rfl | hsp''
            · simp at hch
            · exact hsp sp hsp'' ch hch
          · simp only [List.map_cons, glue, List.nil_append]
            rw [hglue, heq]

/-- C7: for every input on which `tokenize` succeeds, the emitted
lexemes, interleaved in scan order with the whitespace spans skipped
between them, concatenate back to the original input exactly (the matched
spans tile the input with no gaps and no overlaps). -/
theorem roundtrip_concatenation :
    ∀ (s : String) (ts : List Token), tokenize s = .ok ts →
      ∃ ws : List (List Char), ws.length = ts.length + 1 ∧
        (∀ sp ∈ ws, ∀ ch ∈ sp, isPySpace ch = true) ∧
        glue ws (ts.map fun t => t.lexeme.data) = s.data :=
  fun _ ts h => tokenizeFuel_glue _ _ _ _ ts (tokenize_eq_iff.1 h)

/-- Witness for C7: the whitespace-preserving round trip evaluated on
`"x\n  y"` and its two identifier tokens. -/
theorem roundtrip_concatenation_witness :
    ∃ ws : List (List Char), ws.length = 2 + 1 ∧
      (∀ sp ∈ ws, ∀ ch ∈ sp, isPySpace ch = true) ∧
      glue ws
        ([Token.mk .IDENTIFIER "x" 1 1,
          Token.mk .IDENTIFIER "y" 2 3].map fun t => t.lexeme.data) =
        "x\n  y".data :=
  roundtrip_concatenation "x\n  y"
    [Token.mk .IDENTIFIER "x" 1 1, Token.mk .IDENTIFIER "y" 2 3] rfl

/-! ## Whitespace-insertion machinery (claim C8) -/

theorem shapeR_map_cons (t : Token) (r : Except LexError (List Token)) :
    shapeR (Except.map (fun ts => t :: ts) r) =
      Except.map (fun sh => tokenShape t :: sh) (shapeR r) := by
  cases r <;> rfl

/-- Appending anything whose first character fails the class leaves a
maximal run unchanged. -/
theorem takeWhile_append_headF {p : Char → Bool} (as : List Char)
    {wh : Char} (wt' : List Char) (hwh : p wh = false) :
    (as ++ wh :: wt').takeWhile p = as.takeWhile p ∧
    (as ++ wh :: wt').dropWhile p = as.dropWhile p ++ wh :: wt' := by
  by_cases h : as.dropWhile p = []
  · have hall : ∀ x ∈ as, p x = true := List.dropWhile_eq_nil_iff.1 h
    rw [takeWhile_append_all _ hall, dropWhile_append_all _ hall]
    constructor
    · simp [List.takeWhile_cons, hwh, List.takeWhile_eq_self_iff.2 hall]
    · simp [List.dropWhile_cons, hwh, h]
  · exact ⟨takeWhile_append_stop _ h, dropWhile_append_stop _ h⟩

/-- The categories and lexemes produced by the scan do not depend on the
cursor's line/column state (only the recorded positions do). -/
theorem tokenizeFuel_shape_pos (fuel : Nat) :
    ∀ {fuel' : Nat} {input : List Char} {l c l' c' : Nat}
      {r r' : Except LexError (List Token)},
      tokenizeFuel fuel input l c = some r →
      tokenizeFuel fuel' input l' c' = some r' →
      shapeR r = shapeR r' := by
  induction fuel with
  | zero =>
    intro fuel' input l c l' c' r r' h h'
    cases input with
    | nil =>
      rw [tokenizeFuel_nil, Option.some_inj] at h h'
      rw [← h, ← h']
    | cons a as => simp [tokenizeFuel] at h
  | succ fuel ih =>
    intro fuel' input l c l' c' r r' h h'
    cases input with
    | nil =>
      rw [tokenizeFuel_nil, Option.some_inj] at h h'
      rw [← h, ← h']
    | cons a as =>
      cases fuel' with
      | zero => simp [tokenizeFuel] at h'
      | succ fuel'' =>
        cases hm : masterMatch (a :: as) with
        | none =>
          simp only [tokenizeFuel, hm, Option.some_inj] at h h'
          rw [← h, ← h']
          rfl
        | some klr =>
          obtain ⟨k, lx, rest⟩ := klr
          cases k <;> simp only [tokenizeFuel, hm, emitTok] at h h'
          · exact ih h h'
          all_goals
            obtain ⟨a1, ha1, hfa1⟩ := Option.map_eq_some'.1 h
            obtain ⟨a2, ha2, hfa2⟩ := Option.map_eq_some'.1 h'
            rw [← hfa1, ← hfa2, shapeR_map_cons, shapeR_map_cons, ih ha1 ha2]
            rfl

/-- Prepending a non-empty all-whitespace run leaves the shape of the
scan outcome unchanged. -/
theorem tokenizeFuel_shape_prepend_ws
    (w input : List Char) (l c fuel fuel2 : Nat)
    (r r2 : Except LexError (List Token))
    (hne : w ≠ []) (hall : ∀ x ∈ w, isPySpace x = true)
    (h : tokenizeFuel fuel (w ++ input) l c = some r)
    (h2 : tokenizeFuel fuel2 input 1 1 = some r2) :
    shapeR r = shapeR r2 := by
  cases w with
  | nil => exact absurd rfl hne
  | cons wh wt =>
    cases fuel with
    | zero => simp [tokenizeFuel] at h
    | succ f =>
      have hwh : isPySpace wh = true := hall wh (List.mem_cons_self wh wt)
      have hwt : ∀ x ∈ wt, isPySpace x = true :=
        fun x hx => hall x (List.mem_cons_of_mem wh hx)
      have hm := masterMatch_ws (wt ++ input) hwh
      rw [takeWhile_append_all _ hwt, dropWhile_append_all _ hwt] at hm
      rw [List.cons_append] at h
      simp only [tokenizeFuel, hm] at h
      cases input with
      | nil =>
        simp only [List.dropWhile_nil] at h
        rw [tokenizeFuel_nil, Option.some_inj] at h
        rw [tokenizeFuel_nil, Option.some_inj] at h2
        rw [← h, ← h2]
      | cons b bs =>
        by_cases hb : isPySpace b = true
        · cases fuel2 with
          | zero => simp [tokenizeFuel] at h2
          | succ f2 =>
            have hm2 := masterMatch_ws bs hb
            simp only [tokenizeFuel, hm2] at h2
            simp only [List.dropWhile_cons, hb, if_true] at h
            exact tokenizeFuel_shape_pos f h h2
        · have hb' : isPySpace b = false := by simpa using hb
          simp only [List.dropWhile_cons, hb', Bool.false_eq_true, if_false] at h
          exact tokenizeFuel_shape_pos f h h2

/-- Separation: when a prefix of the input scans successfully on its own,
scanning the prefix, a non-empty whitespace run and a suffix concatenated
yields the prefix's token shapes followed by the shapes of scanning the
suffix alone (a suffix error propagates with its offending character). -/
theorem tokenizeFuel_shape_sep (fuel1 : Nat) :
    ∀ (input1 : List Char) (l0 c0 : Nat) (ts1 : List Token),
      tokenizeFuel fuel1 input1 l0 c0 = some (.ok ts1) →
      ∀ (w input2 : List Char) (l c fuel fuel2 : Nat)
        (r r2 : Except LexError (List Token)),
        (∀ x ∈ w, isPySpace x = true) → w ≠ [] →
        tokenizeFuel fuel (input1 ++ (w ++ input2)) l c = some r →
        tokenizeFuel fuel2 input2 1 1 = some r2 →
        shapeR r = Except.map (fun sh => tokenShapes ts1 ++ sh) (shapeR r2) := by
  induction fuel1 with
  | zero =>
    intro input1 l0 c0 ts1 h1 w input2 l c fuel fuel2 r r2 hall hne hfull h2
    cases input1 with
    | cons a as => simp [tokenizeFuel] at h1
    | nil =>
      rw [tokenizeFuel_nil, Option.some_inj] at h1
      simp only [Except.ok.injEq] at h1
      subst h1
      rw [List.nil_append] at hfull
      have hsh := tokenizeFuel_shape_prepend_ws w input2 l c fuel fuel2 r r2
        hne hall hfull h2
      rw [hsh]
      cases hx : shapeR r2 <;> simp [Except.map, tokenShapes]
  | succ fuel1 ih =>
    intro input1 l0 c0 ts1 h1 w input2 l c fuel fuel2 r r2 hall hne hfull h2
    cases input1 with
    | nil =>
      rw [tokenizeFuel_nil, Option.some_inj] at h1
      simp only [Except.ok.injEq] at h1
      subst h1
      rw [List.nil_append] at hfull
      have hsh := tokenizeFuel_shape_prepend_ws w input2 l c fuel fuel2 r r2
        hne hall hfull h2
      rw [hsh]
      cases hx : shapeR r2 <;> simp [Except.map, tokenShapes]
    | cons a as =>
      cases hm1 : masterMatch (a :: as) with
      | none => simp [tokenizeFuel, hm1] at h1
      | some klr =>
        obtain ⟨k, lx, rest⟩ := klr
        simp only [List.cons_append] at hfull
        cases fuel with
        | zero => simp [tokenizeFuel] at hfull
        | succ f =>
        cases k with
        | WHITESPACE =>
          obtain ⟨hpw, hlx, hrest⟩ := masterMatch_shape_ws hm1
          simp only [tokenizeFuel, hm1] at h1
          by_cases hr0 : rest = []
          · rw [hr0, tokenizeFuel_nil, Option.some_inj] at h1
            simp only [Except.ok.injEq] at h1
            subst h1
            have hallas : ∀ x ∈ as, isPySpace x = true := by
              have hdw : as.dropWhile isPySpace = [] := by rw [← hrest]; exact hr0
              exact List.dropWhile_eq_nil_iff.1 hdw
            have hallaw : ∀ x ∈ (a :: as) ++ w, isPySpace x = true := by
              intro x hx
              rcases List.mem_append.1 hx with hx | hx
              · rcases List.mem_cons.1 hx with rfl | hx
                · exact hpw
                · exact hallas x hx
              · exact hall x hx
            have hfull' : tokenizeFuel (f + 1) (((a :: as) ++ w) ++ input2) l c
                = some r := by
              simpa [List.cons_append, List.append_assoc] using hfull
            have hsh := tokenizeFuel_shape_prepend_ws ((a :: as) ++ w) input2
              l c (f + 1) fuel2 r r2 (by simp) hallaw hfull' h2
            rw [hsh]
            cases hx : shapeR r2 <;> simp [Except.map, tokenShapes]
          · have hdw_ne : as.dropWhile isPySpace ≠ [] := by rw [← hrest]; exact hr0
            have hm_ext : masterMatch (a :: (as ++ (w ++ input2))) =
                some (.WHITESPACE, lx, rest ++ (w ++ input2)) := by
              have hmm := masterMatch_ws (as ++ (w ++ input2)) hpw
              rw [takeWhile_append_stop _ hdw_ne, dropWhile_append_stop _ hdw_ne]
                at hmm
              rw [hmm, hlx, hrest]
            simp only [tokenizeFuel, hm_ext] at hfull
            exact ih rest _ _ ts1 h1 w input2 _ _ f fuel2 r r2 hall hne hfull h2
        | IDENTIFIER =>
          obtain ⟨hla, hlx, hrest⟩ := masterMatch_shape_ident hm1
          simp only [tokenizeFuel, hm1] at h1
          obtain ⟨ts1', h1rec, hts1⟩ := emitTok_ok h1
          obtain ⟨wh, wt, rfl⟩ : ∃ wh wt, w = wh :: wt := by
            cases w with
            | nil => exact absurd rfl hne
            | cons wh wt => exact ⟨wh, wt, rfl⟩
          have hwh : isLowerAZ wh = false :=
            isPySpace_not_lower (hall wh (List.mem_cons_self wh wt))
          have hm_ext : masterMatch (a :: (as ++ ((wh :: wt) ++ input2))) =
              some (.IDENTIFIER, lx, rest ++ ((wh :: wt) ++ input2)) := by
            simp only [List.cons_append]
            have hmm := masterMatch_ident (as ++ (wh :: (wt ++ input2))) hla
            obtain ⟨htk, hdr⟩ := takeWhile_append_headF as (wt ++ input2) hwh
            rw [htk, hdr] at hmm
            rw [hmm, hlx, hrest]
          simp only [tokenizeFuel, hm_ext] at hfull
          unfold emitTok at hfull
          obtain ⟨aa, haa, hfa⟩ := Option.map_eq_some'.1 hfull
          have hsh := ih rest _ _ ts1' h1rec (wh :: wt) input2 _ _ f fuel2 aa r2
            hall hne haa h2
          rw [← hfa, shapeR_map_cons, hsh, hts1]
          cases hx : shapeR r2 <;> simp [Except.map, tokenShapes, tokenShape]
        | INTEGER =>
          obtain ⟨hdg, hlx, hrest⟩ := masterMatch_shape_int hm1
          simp only [tokenizeFuel, hm1] at h1
          obtain ⟨ts1', h1rec, hts1⟩ := emitTok_ok h1
          obtain ⟨wh, wt, rfl⟩ : ∃ wh wt, w = wh :: wt := by
            cases w with
            | nil => exact absurd rfl hne
            | cons wh wt => exact ⟨wh, wt, rfl⟩
          have hwh : isDigit09 wh = false :=
            isPySpace_not_digit (hall wh (List.mem_cons_self wh wt))
          have hm_ext : masterMatch (a :: (as ++ ((wh :: wt) ++ input2))) =
              some (.INTEGER, lx, rest ++ ((wh :: wt) ++ input2)) := by
            simp only [List.cons_append]
            have hmm := masterMatch_int (as ++ (wh :: (wt ++ input2))) hdg
            obtain ⟨htk, hdr⟩ := takeWhile_append_headF as (wt ++ input2) hwh
            rw [htk, hdr] at hmm
            rw [hmm, hlx, hrest]
          simp only [tokenizeFuel, hm_ext] at hfull
          unfold emitTok at hfull
          obtain ⟨aa, haa, hfa⟩ := Option.map_eq_some'.1 hfull
          have hsh := ih rest _ _ ts1' h1rec (wh :: wt) input2 _ _ f fuel2 aa r2
            hall hne haa h2
          rw [← hfa, shapeR_map_cons, hsh, hts1]
          cases hx : shapeR r2 <;> simp [Except.map, tokenShapes, tokenShape]
        | OPERATOR =>
          obtain ⟨hop, hlx, hrest⟩ := masterMatch_shape_op hm1
          simp only [tokenizeFuel, hm1] at h1
          obtain ⟨ts1', h1rec, hts1⟩ := emitTok_ok h1
          have hm_ext : masterMatch (a :: (as ++ (w ++ input2))) =
              some (.OPERATOR, lx, rest ++ (w ++ input2)) := by
            have hmm := masterMatch_op (as ++ (w ++ input2)) hop
            rw [hmm, hlx, hrest]
          simp only [tokenizeFuel, hm_ext] at hfull
          unfold emitTok at hfull
          obtain ⟨aa, haa, hfa⟩ := Option.map_eq_some'.1 hfull
          have hsh := ih rest _ _ ts1' h1rec w input2 _ _ f fuel2 aa r2
            hall hne haa h2
          rw [← hfa, shapeR_map_cons, hsh, hts1]
          cases hx : shapeR r2 <;> simp [Except.map, tokenShapes, tokenShape]
        | DELIMITER =>
          obtain ⟨hdl, hlx, hrest⟩ := masterMatch_shape_delim hm1
          simp only [tokenizeFuel, hm1] at h1
          obtain ⟨ts1', h1rec, hts1⟩ := emitTok_ok h1
          have hm_ext : masterMatch (a :: (as ++ (w ++ input2))) =
              some (.DELIMITER, lx, rest ++ (w ++ input2)) := by
            have hmm := masterMatch_delim (as ++ (w ++ input2)) hdl
            rw [hmm, hlx, hrest]
          simp only [tokenizeFuel, hm_ext] at hfull
          unfold emitTok at hfull
          obtain ⟨aa, haa, hfa⟩ := Option.map_eq_some'.1 hfull
          have hsh := ih rest _ _ ts1' h1rec w input2 _ _ f fuel2 aa r2
            hall hne haa h2
          rw [← hfa, shapeR_map_cons, hsh, hts1]
          cases hx : shapeR r2 <;> simp [Except.map, tokenShapes, tokenShape]

/-- C8: for an input that tokenizes successfully, inserting an additional
whitespace run at a boundary between consecutive tokens (a split of the
input into two halves that each tokenize to the corresponding halves of
the token sequence) yields an input whose token sequence has the same
length and the same category and lexeme at every index; only the recorded
line/column of tokens may differ. -/
theorem whitespace_insertion_invariance :
    ∀ (s s1 s2 w : String) (ts ts1 ts2 : List Token),
      s.data = s1.data ++ s2.data →
      tokenize s = .ok ts →
      tokenize s1 = .ok ts1 →
      tokenize s2 = .ok ts2 →
      tokenShapes ts = tokenShapes ts1 ++ tokenShapes ts2 →
      (∀ c ∈ w.data, isPySpace c = true) →
      ∃ ts' : List Token,
        tokenize (s1 ++ w ++ s2) = .ok ts' ∧
        tokenShapes ts' = tokenShapes ts := by
  intro s s1 s2 w ts ts1 ts2 hsplit hs hs1 hs2 hshape hw
  by_cases hwe : w.data = []
  · have hdata : (s1 ++ w ++ s2).data = s.data := by
      rw [String.data_append, String.data_append, hwe, hsplit]
      simp
    have heq : tokenize (s1 ++ w ++ s2) = tokenize s := by
      unfold tokenize
      rw [hdata]
    exact ⟨ts, by rw [heq]; exact hs, rfl⟩
  · have h1 := tokenize_eq_iff.1 hs1
    have h2 := tokenize_eq_iff.1 hs2
    obtain ⟨r, hr⟩ := Option.isSome_iff_exists.1
      (tokenizeFuel_isSome (s1 ++ w ++ s2).data.length (s1 ++ w ++ s2).data 1 1
        le_rfl)
    have hdata : (s1 ++ w ++ s2).data = s1.data ++ (w.data ++ s2.data) := by
      rw [String.data_append, String.data_append, List.append_assoc]
    rw [hdata] at hr
    have hsep := tokenizeFuel_shape_sep _ s1.data 1 1 ts1 h1 w.data s2.data
      1 1 _ _ r (.ok ts2) hw hwe hr h2
    have hsh : shapeR r = .ok (tokenShapes ts) := by
      rw [hsep, hshape]
      rfl
    cases r with
    | error e => simp [shapeR] at hsh
    | ok ts' =>
      refine ⟨ts', ?_, ?_⟩
      · rw [tokenize_eq_iff, hdata]
        exact hr
      · simpa [shapeR] using hsh

/-- Witness for C8: inserting the whitespace run `"\n\t"` at the boundary
between the two tokens of `"x y"` preserves both categories and both
lexemes. -/
theorem whitespace_insertion_invariance_witness :
    ∃ ts' : List Token,
      tokenize ("x" ++ "\n\t" ++ " y") = .ok ts' ∧
      tokenShapes ts' =
        tokenShapes [Token.mk .IDENTIFIER "x" 1 1, Token.mk .IDENTIFIER "y" 1 3] :=
  whitespace_insertion_invariance "x y" "x" " y" "\n\t"
    [Token.mk .IDENTIFIER "x" 1 1, Token.mk .IDENTIFIER "y" 1 3]
    [Token.mk .IDENTIFIER "x" 1 1] [Token.mk .IDENTIFIER "y" 1 2]
    rfl rfl rfl rfl rfl (by decide)

end TallerLexico
